import Mathlib

/-!
Shallow embedding of the caching subsystem of the imdbapi repository
(src/imdbapi/bareapi/caching/caching.py and req_cache.py), together with
theorems checking the natural-language specification against it.

Python dictionaries are modelled as association lists with unique keys,
`collections.deque(maxlen=n)` as a list with a bounded append, SQLite's
single (key TEXT PRIMARY KEY ON CONFLICT REPLACE, value BLOB) table as an
association list from keys to nullable blobs, and Python exceptions as
`Except` values that carry the object state at raise time (mutations made
before the raise persist, as they do in Python).
-/

namespace Imdb

/-- Request URLs, the cache keys. -/
abbrev Key := String

/-- Raw response payloads (byte blobs). -/
abbrev Content := List Nat

/-- Python exceptions that the modelled code can raise, plus the
environmental failures of the two external collaborators (the network and
the SQLite database file). -/
inductive PyErr where
  | keyError (k : Key)
  | indexError
  | valueError
  | connectionError
  | storeError
deriving DecidableEq, Repr

/-- Lookup in a Python dict modelled as an association list
(first binding wins; the operations below keep keys unique). -/
def dictLookup {α : Type} : List (Key × α) → Key → Option α
  | [], _ => none
  | (k₀, v) :: rest, k => if k₀ = k then some v else dictLookup rest k

/-- Python `key in dict`. -/
def dictContains {α : Type} (d : List (Key × α)) (k : Key) : Bool :=
  (dictLookup d k).isSome

/-- Python `dict[key] = value`: update in place if present, else append. -/
def dictInsert {α : Type} : List (Key × α) → Key → α → List (Key × α)
  | [], k, v => [(k, v)]
  | (k₀, v₀) :: rest, k, v =>
    if k₀ = k then (k, v) :: rest else (k₀, v₀) :: dictInsert rest k v

/-- Python `del dict[key]`: `none` models the `KeyError` on a missing key. -/
def dictDelete {α : Type} : List (Key × α) → Key → Option (List (Key × α))
  | [], _ => none
  | (k₀, v₀) :: rest, k =>
    if k₀ = k then some rest else (dictDelete rest k).map ((k₀, v₀) :: ·)

/-- The keys of a dict, in storage order. -/
def keysOf {α : Type} (d : List (Key × α)) : List Key := d.map Prod.fst

/-- Python `deque.remove(x)`: drop the first occurrence;
`none` models the `ValueError` on a missing element. -/
def listRemoveFirst : List Key → Key → Option (List Key)
  | [], _ => none
  | x :: rest, k =>
    if x = k then some rest else (listRemoveFirst rest k).map (x :: ·)

/-- Python `deque.append(x)` on a deque constructed with `maxlen`:
elements beyond the bound fall off the left end. -/
def dequeAppend (maxlen : Nat) (q : List Key) (k : Key) : List Key :=
  let grown := q ++ [k]
  grown.drop (grown.length - maxlen)

/-- The in-memory LRU store, `LruStore` in caching.py: a dict `storage`,
a recency deque `usage_order` (least recent at the head) bounded by
`max_size`, and the bound itself. -/
structure LruStore (α : Type) where
  storage : List (Key × α)
  usage_order : List Key
  max_size : Nat
deriving Repr

/-- `LruStore.__init__(max_size)`: empty dict, empty bounded deque. -/
def LruStore.init (α : Type) (max_size : Nat) : LruStore α :=
  ⟨[], [], max_size⟩

/-- `LruStore.__getitem__`: if the key is in `storage`, move it to the
most-recent end of `usage_order`; then return `storage[key]`, raising
`KeyError` when absent.  An error carries the state at raise time. -/
def LruStore.getitem {α : Type} (s : LruStore α) (k : Key) :
    Except (PyErr × LruStore α) (LruStore α × α) :=
  match dictLookup s.storage k with
  | some v =>
    match listRemoveFirst s.usage_order k with
    | none => .error (.valueError, s)
    | some q =>
      .ok ({ s with usage_order := dequeAppend s.max_size q k }, v)
  | none => .error (.keyError k, s)

/-- `LruStore.__setitem__`: when the deque is full, read `usage_order[0]`
(an `IndexError` on an empty deque), pop it and delete it from `storage`
(a `KeyError` if it is not there, with the pop already done); then store
the value and append the key to `usage_order`. -/
def LruStore.setitem {α : Type} (s : LruStore α) (k : Key) (v : α) :
    Except (PyErr × LruStore α) (LruStore α) :=
  if s.usage_order.length = s.max_size then
    match s.usage_order with
    | [] => .error (.indexError, s)
    | olditem :: rest =>
      match dictDelete s.storage olditem with
      | none => .error (.keyError olditem, { s with usage_order := rest })
      | some st =>
        .ok { s with storage := dictInsert st k v,
                     usage_order := dequeAppend s.max_size rest k }
  else
    .ok { s with storage := dictInsert s.storage k v,
                 usage_order := dequeAppend s.max_size s.usage_order k }

/-- `LruStore.__delitem__`: remove the key from the recency deque
(`ValueError` if absent) and from the dict (`KeyError` if absent, with the
deque removal already done). -/
def LruStore.delitem {α : Type} (s : LruStore α) (k : Key) :
    Except (PyErr × LruStore α) (LruStore α) :=
  match listRemoveFirst s.usage_order k with
  | none => .error (.valueError, s)
  | some q =>
    match dictDelete s.storage k with
    | none => .error (.keyError k, { s with usage_order := q })
    | some st => .ok { s with storage := st, usage_order := q }

/-- `LruStore.__contains__`: membership in `storage`, no recency change. -/
def LruStore.contains {α : Type} (s : LruStore α) (k : Key) : Bool :=
  dictContains s.storage k

/-- The durable tier, `SQLiteKeyValueStore` in caching.py: one table of
(key, blob) rows where the key is a primary key with ON CONFLICT REPLACE
and the blob column is nullable. -/
structure SQLiteKeyValueStore where
  table : List (Key × Option Content)
deriving DecidableEq, Repr

/-- `SQLiteKeyValueStore.__init__`: CREATE TABLE IF NOT EXISTS, empty. -/
def SQLiteKeyValueStore.init : SQLiteKeyValueStore := ⟨[]⟩

/-- `SQLiteKeyValueStore.__setitem__`: INSERT with ON CONFLICT REPLACE,
an upsert. -/
def SQLiteKeyValueStore.setitem (s : SQLiteKeyValueStore) (k : Key)
    (v : Option Content) : SQLiteKeyValueStore :=
  ⟨dictInsert s.table k v⟩

/-- `SQLiteKeyValueStore.__getitem__`: SELECT the row; if `fetchone`
returns no row, return `None`, else return the blob (itself nullable). -/
def SQLiteKeyValueStore.getitem (s : SQLiteKeyValueStore) (k : Key) :
    Option Content :=
  match dictLookup s.table k with
  | none => none
  | some blob => blob

/-- `SQLiteKeyValueStore.__delitem__`: DELETE WHERE key = ?, a no-op when
the key is absent. -/
def SQLiteKeyValueStore.delitem (s : SQLiteKeyValueStore) (k : Key) :
    SQLiteKeyValueStore :=
  ⟨s.table.filter (fun row => row.1 ≠ k)⟩

/-- `SQLiteKeyValueStore.__contains__`: `self[item] is not None`. -/
def SQLiteKeyValueStore.contains (s : SQLiteKeyValueStore) (k : Key) :
    Bool :=
  (s.getitem k).isSome

/-- An HTTP response object as the cache layer sees it: requests's
`Response` with its `_content` field (nullable) and `status_code`
(`none` on a bare `requests.Response()`). -/
structure Response where
  _content : Option Content
  status_code : Option Nat
deriving DecidableEq, Repr

/-- The environment of one coordinator call: the network (what
`requests.get` returns or raises per URL) and whether the SQLite file is
readable/writable (a failing operation raises into the caller, since
req_cache.py catches nothing). -/
structure World where
  fetch : Key → Except PyErr Response
  dbReadOk : Bool
  dbWriteOk : Bool

/-- The mutable state of a `RequestsSQLiteBackedMemoryCache`: the
in-memory tier (a dict value in Python can also be `None`, hence
`Option Content`) and the durable tier. -/
structure CacheState where
  mem_cache : LruStore (Option Content)
  file_cache : SQLiteKeyValueStore

/-- `RequestsSQLiteBackedMemoryCache.__init__(db_path, n)`. -/
def initCache (mem_cache_max_size : Nat) : CacheState :=
  ⟨LruStore.init (Option Content) mem_cache_max_size, SQLiteKeyValueStore.init⟩

/-- A durable-tier read in context: `open_db` plus the SELECT; raises
`storeError` when the database cannot be read. -/
def fileGet (w : World) (s : SQLiteKeyValueStore) (k : Key) :
    Except PyErr (Option Content) :=
  if w.dbReadOk then .ok (s.getitem k) else .error .storeError

/-- A durable-tier write in context: `open_db` plus the INSERT and commit;
raises `storeError` when the database cannot be written. -/
def fileSet (w : World) (s : SQLiteKeyValueStore) (k : Key)
    (v : Option Content) : Except PyErr SQLiteKeyValueStore :=
  if w.dbWriteOk then .ok (s.setitem k v) else .error .storeError

/-- `do_request(url)` in req_cache.py: `requests.get(url)` (which may
raise), then `(response.content, response)` with no status check. -/
def do_request (w : World) (url : Key) :
    Except PyErr (Option Content × Response) :=
  match w.fetch url with
  | .error e => .error e
  | .ok response => .ok (response._content, response)

/-- `recreate_request(content)`: a fresh `requests.Response()` whose
`_content` is set to the stored blob, paired with `True`. -/
def recreate_request (content : Option Content) : Response × Bool :=
  ({ _content := content, status_code := none }, true)

/-- A successful coordinator call: the state afterwards, the returned
response, the returned was-cached flag, and how many times
`requests.get` was invoked along the way. -/
structure CallOk where
  state : CacheState
  response : Response
  was_cached : Bool
  fetches : Nat

/-- The outcome of a coordinator call: success, or a raised exception
with the state at raise time and the number of `requests.get` calls
made before raising. -/
abbrev CallRes := Except (PyErr × CacheState × Nat) CallOk

/-- `RequestsSQLiteBackedMemoryCache.sync_cache(url)`: fetch, then write
the content into the memory tier, then into the durable tier, and return
`(result, False)`.  Any raise propagates with the mutations made so far
kept. -/
def sync_cache (w : World) (st : CacheState) (url : Key) : CallRes :=
  match do_request w url with
  | .error e => .error (e, st, 1)
  | .ok (content, result) =>
    match st.mem_cache.setitem url content with
    | .error (e, m) => .error (e, { st with mem_cache := m }, 1)
    | .ok m =>
      match fileSet w st.file_cache url content with
      | .error e => .error (e, { st with mem_cache := m }, 1)
      | .ok f => .ok ⟨⟨m, f⟩, result, false, 1⟩

/-- `RequestsSQLiteBackedMemoryCache.normal_call(url)`: memory tier first
(`in`, then `[]` which refreshes recency), else probe the durable tier
(`in` runs one SELECT, the subsequent `[]` another), promote a durable
hit into the memory tier, else fall through to `sync_cache`. -/
def normal_call (w : World) (st : CacheState) (url : Key) : CallRes :=
  if st.mem_cache.contains url then
    match st.mem_cache.getitem url with
    | .error (e, m) => .error (e, { st with mem_cache := m }, 0)
    | .ok (m, content) =>
      let rb := recreate_request content
      .ok ⟨{ st with mem_cache := m }, rb.1, rb.2, 0⟩
  else
    match fileGet w st.file_cache url with
    | .error e => .error (e, st, 0)
    | .ok probe =>
      if probe.isSome then
        match fileGet w st.file_cache url with
        | .error e => .error (e, st, 0)
        | .ok content =>
          match st.mem_cache.setitem url content with
          | .error (e, m) => .error (e, { st with mem_cache := m }, 0)
          | .ok m =>
            let rb := recreate_request content
            .ok ⟨{ st with mem_cache := m }, rb.1, rb.2, 0⟩
      else
        sync_cache w st url

/-- `RequestsSQLiteBackedMemoryCache.__call__(url, sync_cache)`. -/
def cacheCall (w : World) (st : CacheState) (url : Key) (sync : Bool) :
    CallRes :=
  if sync then sync_cache w st url else normal_call w st url

/-! ### Association-list and deque lemmas -/

theorem keysOf_nil {α : Type} : keysOf ([] : List (Key × α)) = [] := rfl

theorem keysOf_cons {α : Type} (k₀ : Key) (v₀ : α) (rest : List (Key × α)) :
    keysOf ((k₀, v₀) :: rest) = k₀ :: keysOf rest := rfl

theorem dictLookup_isSome_iff {α : Type} (d : List (Key × α)) (k : Key) :
    (dictLookup d k).isSome = true ↔ k ∈ keysOf d := by
  induction d with
  | nil => simp [dictLookup, keysOf_nil]
  | cons p rest ih =>
    obtain ⟨k₀, v₀⟩ := p
    rw [keysOf_cons]
    by_cases h : k₀ = k
    · subst h
      simp [dictLookup]
    · rw [List.mem_cons]
      simp only [dictLookup, if_neg h]
      rw [ih]
      constructor
      · exact Or.inr
      · rintro (rfl | hm)
        · exact absurd rfl h
        · exact hm

theorem dictContains_iff {α : Type} (d : List (Key × α)) (k : Key) :
    dictContains d k = true ↔ k ∈ keysOf d := by
  simpa [dictContains] using dictLookup_isSome_iff d k

theorem dictLookup_insert_self {α : Type} (d : List (Key × α)) (k : Key)
    (v : α) : dictLookup (dictInsert d k v) k = some v := by
  induction d with
  | nil => simp [dictInsert, dictLookup]
  | cons p rest ih =>
    obtain ⟨k₀, v₀⟩ := p
    by_cases h : k₀ = k <;> simp [dictInsert, dictLookup, h, ih]

theorem dictLookup_insert_ne {α : Type} (d : List (Key × α)) {k k₁ : Key}
    (v : α) (h : k₁ ≠ k) :
    dictLookup (dictInsert d k v) k₁ = dictLookup d k₁ := by
  have hne : k ≠ k₁ := fun hk => h hk.symm
  induction d with
  | nil => simp [dictInsert, dictLookup, hne]
  | cons p rest ih =>
    obtain ⟨k₀, v₀⟩ := p
    by_cases h₀ : k₀ = k
    · subst h₀
      simp [dictInsert, dictLookup, hne]
    · simp only [dictInsert, if_neg h₀, dictLookup]
      rw [ih]

theorem keysOf_insert_mem {α : Type} {d : List (Key × α)} {k : Key}
    (v : α) (h : k ∈ keysOf d) :
    keysOf (dictInsert d k v) = keysOf d := by
  induction d with
  | nil => rw [keysOf_nil] at h; cases h
  | cons p rest ih =>
    obtain ⟨k₀, v₀⟩ := p
    by_cases h₀ : k₀ = k
    · subst h₀
      simp [dictInsert, keysOf_cons]
    · rw [keysOf_cons, List.mem_cons] at h
      have hrest : k ∈ keysOf rest := by
        rcases h with h | h
        · exact absurd h.symm h₀
        · exact h
      simp only [dictInsert, if_neg h₀]
      rw [keysOf_cons, keysOf_cons, ih hrest]

theorem keysOf_insert_not_mem {α : Type} {d : List (Key × α)} {k : Key}
    (v : α) (h : k ∉ keysOf d) :
    keysOf (dictInsert d k v) = keysOf d ++ [k] := by
  induction d with
  | nil => simp [dictInsert, keysOf_cons, keysOf_nil]
  | cons p rest ih =>
    obtain ⟨k₀, v₀⟩ := p
    rw [keysOf_cons, List.mem_cons] at h
    push_neg at h
    have h₀ : k₀ ≠ k := fun hk => h.1 hk.symm
    have hrest : k ∉ keysOf rest := h.2
    simp only [dictInsert, if_neg h₀]
    rw [keysOf_cons, keysOf_cons, ih hrest, List.cons_append]

theorem length_dictInsert_mem {α : Type} {d : List (Key × α)} {k : Key}
    (v : α) (h : k ∈ keysOf d) :
    (dictInsert d k v).length = d.length := by
  have := keysOf_insert_mem v h
  have h₁ : (keysOf (dictInsert d k v)).length = (keysOf d).length := by
    rw [this]
  simpa [keysOf] using h₁

theorem length_dictInsert_not_mem {α : Type} {d : List (Key × α)} {k : Key}
    (v : α) (h : k ∉ keysOf d) :
    (dictInsert d k v).length = d.length + 1 := by
  have := keysOf_insert_not_mem v h
  have h₁ : (keysOf (dictInsert d k v)).length = (keysOf d ++ [k]).length := by
    rw [this]
  simpa [keysOf] using h₁

theorem dictDelete_eq_none_iff {α : Type} (d : List (Key × α)) (k : Key) :
    dictDelete d k = none ↔ k ∉ keysOf d := by
  induction d with
  | nil => simp [dictDelete, keysOf_nil]
  | cons p rest ih =>
    obtain ⟨k₀, v₀⟩ := p
    rw [keysOf_cons]
    by_cases h : k₀ = k
    · subst h
      simp [dictDelete]
    · simp only [dictDelete, if_neg h, List.mem_cons]
      rw [Option.map_eq_none', ih]
      constructor
      · rintro hn (rfl | hm)
        · exact absurd rfl h
        · exact hn hm
      · intro hn hm
        exact hn (Or.inr hm)

theorem dictDelete_spec {α : Type} {d d₂ : List (Key × α)} {k : Key}
    (h : dictDelete d k = some d₂) :
    keysOf d₂ = (keysOf d).erase k ∧ d₂.length + 1 = d.length := by
  induction d generalizing d₂ with
  | nil => simp [dictDelete] at h
  | cons p rest ih =>
    obtain ⟨k₀, v₀⟩ := p
    by_cases h₀ : k₀ = k
    · subst h₀
      rw [show dictDelete ((k₀, v₀) :: rest) k₀ = some rest by
        simp [dictDelete]] at h
      cases h
      constructor
      · rw [keysOf_cons, List.erase_cons_head]
      · simp
    · simp only [dictDelete, if_neg h₀, Option.map_eq_some'] at h
      obtain ⟨d₁, hd₁, rfl⟩ := h
      obtain ⟨h₁, h₂⟩ := ih hd₁
      have hbeq : (k₀ == k) = false := by simpa using h₀
      constructor
      · rw [keysOf_cons, keysOf_cons, List.erase_cons, hbeq]
        simp only [h₁]
        simp
      · simpa using h₂

theorem dictLookup_delete_self {α : Type} {d d₂ : List (Key × α)} {k : Key}
    (hnd : (keysOf d).Nodup) (h : dictDelete d k = some d₂) :
    dictLookup d₂ k = none := by
  have hkeys := (dictDelete_spec h).1
  have hk : k ∉ keysOf d₂ := by
    rw [hkeys]
    exact List.Nodup.not_mem_erase hnd
  rcases ho : dictLookup d₂ k with _ | v
  · rfl
  · exact absurd ((dictLookup_isSome_iff d₂ k).mp (by rw [ho]; rfl)) hk

theorem dictLookup_delete_ne {α : Type} {d d₂ : List (Key × α)} {k k₁ : Key}
    (h : dictDelete d k = some d₂) (hne : k₁ ≠ k) :
    dictLookup d₂ k₁ = dictLookup d k₁ := by
  induction d generalizing d₂ with
  | nil => simp [dictDelete] at h
  | cons p rest ih =>
    obtain ⟨k₀, v₀⟩ := p
    by_cases h₀ : k₀ = k
    · subst h₀
      rw [show dictDelete ((k₀, v₀) :: rest) k₀ = some rest by
        simp [dictDelete]] at h
      cases h
      have hk : ¬ k₀ = k₁ := fun hk => hne hk.symm
      simp [dictLookup, hk]
    · simp only [dictDelete, if_neg h₀, Option.map_eq_some'] at h
      obtain ⟨d₁, hd₁, rfl⟩ := h
      by_cases h₁ : k₀ = k₁ <;> simp [dictLookup, h₁, ih hd₁]

theorem listRemoveFirst_eq (q : List Key) (k : Key) :
    listRemoveFirst q k = if k ∈ q then some (q.erase k) else none := by
  induction q with
  | nil => simp [listRemoveFirst]
  | cons x rest ih =>
    by_cases h : x = k
    · subst h
      simp [listRemoveFirst, List.erase_cons]
    · have hbeq : (x == k) = false := by simpa using h
      have hxk : ¬ k = x := fun hk => h hk.symm
      simp only [listRemoveFirst, if_neg h, ih, List.mem_cons, List.erase_cons,
        hbeq, cond_false]
      by_cases hm : k ∈ rest
      · simp [hm, hxk]
      · simp [hm, hxk]

theorem dequeAppend_of_lt {maxlen : Nat} {q : List Key} (k : Key)
    (h : q.length < maxlen) : dequeAppend maxlen q k = q ++ [k] := by
  have hle : q.length + 1 ≤ maxlen := h
  simp [dequeAppend, Nat.sub_eq_zero_of_le (by simpa using hle)]

/-! ### Hot Cache well-formedness and operation lemmas -/

/-- Well-formedness of an `LruStore`: no duplicate recency records, no
duplicate dict keys, the dict keys and the recency deque hold the same
keys, the counts agree, and the deque respects the capacity bound. -/
def LruWF {α : Type} (s : LruStore α) : Prop :=
  s.usage_order.Nodup ∧
  (keysOf s.storage).Nodup ∧
  (∀ k ∈ keysOf s.storage, k ∈ s.usage_order) ∧
  (∀ k ∈ s.usage_order, k ∈ keysOf s.storage) ∧
  s.storage.length = s.usage_order.length ∧
  s.usage_order.length ≤ s.max_size

instance {α : Type} (s : LruStore α) : Decidable (LruWF s) := by
  unfold LruWF
  infer_instance

theorem LruStore.getitem_present {α : Type} {s : LruStore α} {k : Key}
    {v : α} (hv : dictLookup s.storage k = some v)
    (hord : k ∈ s.usage_order) (hlen : s.usage_order.length ≤ s.max_size) :
    s.getitem k =
      .ok ({ s with usage_order := s.usage_order.erase k ++ [k] }, v) := by
  have hpos : 0 < s.usage_order.length := List.length_pos_of_mem hord
  have herase : (s.usage_order.erase k).length = s.usage_order.length - 1 :=
    List.length_erase_of_mem hord
  have hlt : (s.usage_order.erase k).length < s.max_size := by
    rw [herase]
    omega
  rw [LruStore.getitem, hv, listRemoveFirst_eq, if_pos hord]
  dsimp only
  rw [dequeAppend_of_lt k hlt]

theorem LruStore.setitem_under {α : Type} {s : LruStore α} (k : Key) (v : α)
    (hlt : s.usage_order.length < s.max_size) :
    s.setitem k v =
      .ok { s with storage := dictInsert s.storage k v,
                   usage_order := s.usage_order ++ [k] } := by
  rw [LruStore.setitem, if_neg (Nat.ne_of_lt hlt),
    dequeAppend_of_lt k hlt]

theorem LruStore.setitem_at_cap {α : Type} {s : LruStore α} {olditem : Key}
    {rest : List Key} {st : List (Key × α)} (k : Key) (v : α)
    (horder : s.usage_order = olditem :: rest)
    (hlen : s.usage_order.length = s.max_size)
    (hdel : dictDelete s.storage olditem = some st) :
    s.setitem k v =
      .ok { s with storage := dictInsert st k v,
                   usage_order := rest ++ [k] } := by
  have hrest : rest.length < s.max_size := by
    rw [horder] at hlen
    simp at hlen
    omega
  rw [LruStore.setitem, if_pos hlen, horder]
  dsimp only
  rw [hdel]
  dsimp only
  rw [dequeAppend_of_lt k hrest]

theorem LruStore.getitem_preserves_wf {α : Type} {s : LruStore α} {k : Key}
    (hwf : LruWF s) (hc : dictContains s.storage k = true) :
    ∃ s₂ v, s.getitem k = .ok (s₂, v) ∧ LruWF s₂ ∧
      s₂.storage = s.storage ∧ s₂.max_size = s.max_size ∧
      s₂.usage_order = s.usage_order.erase k ++ [k] := by
  obtain ⟨hnd, hndk, hso, hos, hleq, hle⟩ := hwf
  have hkk : k ∈ keysOf s.storage := (dictContains_iff _ _).mp hc
  have hord : k ∈ s.usage_order := hso k hkk
  obtain ⟨v, hv⟩ : ∃ v, dictLookup s.storage k = some v := by
    rcases ho : dictLookup s.storage k with _ | v
    · rw [dictContains, ho] at hc
      cases hc
    · exact ⟨v, rfl⟩
  refine ⟨_, v, LruStore.getitem_present hv hord hle, ?_, rfl, rfl, rfl⟩
  have hmem : ∀ x, x ∈ s.usage_order.erase k ++ [k] ↔ x ∈ s.usage_order := by
    intro x
    rw [List.mem_append, List.Nodup.mem_erase_iff hnd, List.mem_singleton]
    constructor
    · rintro (⟨_, hx⟩ | rfl)
      · exact hx
      · exact hord
    · intro hx
      by_cases hxk : x = k
      · exact Or.inr hxk
      · exact Or.inl ⟨hxk, hx⟩
  refine ⟨?_, hndk, ?_, ?_, ?_, ?_⟩
  · exact (List.Nodup.erase k hnd).append (List.nodup_singleton k)
      (fun x hx hxk => ((List.Nodup.mem_erase_iff hnd).mp hx).1
        (List.mem_singleton.mp hxk))
  · intro x hx
    exact (hmem x).mpr (hso x hx)
  · intro x hx
    exact hos x ((hmem x).mp hx)
  · have : (s.usage_order.erase k ++ [k]).length = s.usage_order.length := by
      rw [List.length_append, List.length_erase_of_mem hord,
        List.length_singleton]
      have := List.length_pos_of_mem hord
      omega
    rw [this]
    exact hleq
  · have : (s.usage_order.erase k ++ [k]).length = s.usage_order.length := by
      rw [List.length_append, List.length_erase_of_mem hord,
        List.length_singleton]
      have := List.length_pos_of_mem hord
      omega
    rw [this]
    exact hle

theorem reverse_erase_of_nodup {l : List Key} (k : Key) (h : l.Nodup) :
    (l.erase k).reverse = l.reverse.erase k := by
  rw [h.erase_eq_filter, (List.nodup_reverse.mpr h).erase_eq_filter,
    List.filter_reverse]

theorem LruStore.setitem_fresh_preserves_wf {α : Type} {s : LruStore α}
    {k : Key} (v : α) (hwf : LruWF s)
    (hc : dictContains s.storage k = false) (hpos : 0 < s.max_size) :
    ∃ s₂, s.setitem k v = .ok s₂ ∧ LruWF s₂ ∧ s₂.max_size = s.max_size ∧
      dictLookup s₂.storage k = some v ∧
      s₂.usage_order.reverse =
        k :: s.usage_order.reverse.take (s.max_size - 1) := by
  obtain ⟨hnd, hndk, hso, hos, hleq, hle⟩ := hwf
  have hkk : k ∉ keysOf s.storage := by
    intro hmem
    rw [(dictContains_iff _ _).mpr hmem] at hc
    cases hc
  have hkord : k ∉ s.usage_order := fun hm => hkk (hos k hm)
  by_cases hcap : s.usage_order.length = s.max_size
  · rcases horder : s.usage_order with _ | ⟨o, rest⟩
    · rw [horder] at hcap
      simp at hcap
      omega
    · have ho_mem : o ∈ s.usage_order := by rw [horder]; exact List.mem_cons_self o rest
      have ho_keys : o ∈ keysOf s.storage := hos o ho_mem
      obtain ⟨st, hdel⟩ : ∃ st, dictDelete s.storage o = some st := by
        rcases hd : dictDelete s.storage o with _ | st
        · exact absurd ((dictDelete_eq_none_iff _ _).mp hd) (by simpa using ho_keys)
        · exact ⟨st, rfl⟩
      obtain ⟨hkeys_st, hlen_st⟩ := dictDelete_spec hdel
      have hknotst : k ∉ keysOf st := by
        rw [hkeys_st]
        intro hm
        exact hkk (List.mem_of_mem_erase hm)
      have hndrest : rest.Nodup ∧ o ∉ rest := by
        rw [horder] at hnd
        exact ⟨hnd.of_cons, (List.nodup_cons.mp hnd).1⟩
      have hkrest : k ∉ rest := by
        rw [horder] at hkord
        exact fun hm => hkord (List.mem_cons_of_mem o hm)
      have hrlen : rest.length + 1 = s.max_size := by
        rw [horder] at hcap
        simpa using hcap
      refine ⟨_, LruStore.setitem_at_cap k v horder hcap hdel, ?_, rfl,
        dictLookup_insert_self st k v, ?_⟩
      · have hmem₂ : ∀ x, x ∈ keysOf (dictInsert st k v) ↔ x ∈ rest ++ [k] := by
          intro x
          simp only [keysOf_insert_not_mem v hknotst, List.mem_append,
            hkeys_st, hndk.mem_erase_iff, List.mem_singleton]
          constructor
          · rintro (⟨hxo, hxk⟩ | rfl)
            · have : x ∈ s.usage_order := hso x hxk
              rw [horder, List.mem_cons] at this
              rcases this with rfl | hm
              · exact absurd rfl hxo
              · exact Or.inl hm
            · exact Or.inr rfl
          · rintro (hm | rfl)
            · have hxo : x ≠ o := fun hx => hndrest.2 (hx ▸ hm)
              refine Or.inl ⟨hxo, hos x ?_⟩
              rw [horder]
              exact List.mem_cons_of_mem o hm
            · exact Or.inr rfl
        refine ⟨?_, ?_, ?_, ?_, ?_, ?_⟩
        · exact hndrest.1.append (List.nodup_singleton k)
            (fun x hx hxk => hkrest (List.mem_singleton.mp hxk ▸ hx))
        · rw [keysOf_insert_not_mem v hknotst]
          refine ((hkeys_st ▸ hndk.erase o).append (List.nodup_singleton k)
            (fun x hx hxk => ?_))
          rw [List.mem_singleton] at hxk
          subst hxk
          exact hknotst hx
        · intro x hx
          exact (hmem₂ x).mp hx
        · intro x hx
          exact (hmem₂ x).mpr hx
        · dsimp only
          rw [length_dictInsert_not_mem v hknotst, List.length_append,
            List.length_singleton]
          omega
        · dsimp only
          rw [List.length_append, List.length_singleton]
          omega
      · show (rest ++ [k]).reverse =
          k :: List.take (s.max_size - 1) (o :: rest).reverse
        rw [List.reverse_append, List.reverse_singleton,
          List.singleton_append, List.reverse_cons]
        congr 1
        rw [show s.max_size - 1 = rest.reverse.length by
          rw [List.length_reverse]; omega]
        rw [List.take_left]
  · have hlt : s.usage_order.length < s.max_size := Nat.lt_of_le_of_ne hle hcap
    refine ⟨_, LruStore.setitem_under k v hlt, ?_, rfl,
      dictLookup_insert_self _ k v, ?_⟩
    · have hmem₂ : ∀ x, x ∈ keysOf (dictInsert s.storage k v) ↔
          x ∈ s.usage_order ++ [k] := by
        intro x
        rw [keysOf_insert_not_mem v hkk, List.mem_append, List.mem_append]
        constructor
        · rintro (hm | hm)
          · exact Or.inl (hso x hm)
          · exact Or.inr hm
        · rintro (hm | hm)
          · exact Or.inl (hos x hm)
          · exact Or.inr hm
      refine ⟨?_, ?_, ?_, ?_, ?_, ?_⟩
      · exact hnd.append (List.nodup_singleton k)
          (fun x hx hxk => hkord (List.mem_singleton.mp hxk ▸ hx))
      · rw [keysOf_insert_not_mem v hkk]
        exact hndk.append (List.nodup_singleton k)
          (fun x hx hxk => hkk (List.mem_singleton.mp hxk ▸ hx))
      · intro x hx
        exact (hmem₂ x).mp hx
      · intro x hx
        exact (hmem₂ x).mpr hx
      · dsimp only
        rw [length_dictInsert_not_mem v hkk, List.length_append,
          List.length_singleton]
        omega
      · dsimp only
        rw [List.length_append, List.length_singleton]
        omega
    · show (s.usage_order ++ [k]).reverse =
        k :: s.usage_order.reverse.take (s.max_size - 1)
      rw [List.reverse_append, List.reverse_singleton, List.singleton_append]
      have : s.usage_order.reverse.take (s.max_size - 1) =
          s.usage_order.reverse := by
        apply List.take_of_length_le
        rw [List.length_reverse]
        omega
      rw [this]

theorem LruStore.setitem_wf_lookup {α : Type} {s : LruStore α} (k : Key)
    (v : α) (hwf : LruWF s) (hpos : 0 < s.max_size) :
    ∃ s₂, s.setitem k v = .ok s₂ ∧ dictLookup s₂.storage k = some v ∧
      dictContains s₂.storage k = true ∧ s₂.max_size = s.max_size := by
  rcases hc : dictContains s.storage k with _ | _
  · obtain ⟨s₂, hset, _hwf₂, hmax, hv, _⟩ :=
      LruStore.setitem_fresh_preserves_wf v hwf hc hpos
    exact ⟨s₂, hset, hv, by rw [dictContains, hv]; rfl, hmax⟩
  · obtain ⟨hnd, hndk, hso, hos, hleq, hle⟩ := hwf
    by_cases hcap : s.usage_order.length = s.max_size
    · rcases horder : s.usage_order with _ | ⟨o, rest⟩
      · rw [horder] at hcap
        simp at hcap
        omega
      · have ho_mem : o ∈ s.usage_order := by
          rw [horder]; exact List.mem_cons_self o rest
        have ho_keys : o ∈ keysOf s.storage := hos o ho_mem
        obtain ⟨st, hdel⟩ : ∃ st, dictDelete s.storage o = some st := by
          rcases hd : dictDelete s.storage o with _ | st
          · exact absurd ((dictDelete_eq_none_iff _ _).mp hd)
              (by simpa using ho_keys)
          · exact ⟨st, rfl⟩
        refine ⟨_, LruStore.setitem_at_cap k v horder hcap hdel,
          dictLookup_insert_self st k v, ?_, rfl⟩
        rw [dictContains, dictLookup_insert_self st k v]
        rfl
    · have hlt : s.usage_order.length < s.max_size := Nat.lt_of_le_of_ne hle hcap
      refine ⟨_, LruStore.setitem_under k v hlt,
        dictLookup_insert_self _ k v, ?_, rfl⟩
      rw [dictContains, dictLookup_insert_self _ k v]
      rfl

theorem LruStore.delitem_preserves_wf {α : Type} {s : LruStore α} {k : Key}
    (hwf : LruWF s) (hc : dictContains s.storage k = true) :
    ∃ s₂, s.delitem k = .ok s₂ ∧ LruWF s₂ ∧ s₂.max_size = s.max_size ∧
      dictContains s₂.storage k = false := by
  obtain ⟨hnd, hndk, hso, hos, hleq, hle⟩ := hwf
  have hkk : k ∈ keysOf s.storage := (dictContains_iff _ _).mp hc
  have hord : k ∈ s.usage_order := hso k hkk
  obtain ⟨st, hdel⟩ : ∃ st, dictDelete s.storage k = some st := by
    rcases hd : dictDelete s.storage k with _ | st
    · exact absurd ((dictDelete_eq_none_iff _ _).mp hd) (by simpa using hkk)
    · exact ⟨st, rfl⟩
  obtain ⟨hkeys_st, hlen_st⟩ := dictDelete_spec hdel
  have hred : s.delitem k =
      .ok { s with storage := st, usage_order := s.usage_order.erase k } := by
    rw [LruStore.delitem, listRemoveFirst_eq, if_pos hord]
    dsimp only
    rw [hdel]
  have hmem₂ : ∀ x, x ∈ keysOf st ↔ x ∈ s.usage_order.erase k := by
    intro x
    rw [hkeys_st, hndk.mem_erase_iff, hnd.mem_erase_iff]
    constructor
    · rintro ⟨hxk, hm⟩
      exact ⟨hxk, hso x hm⟩
    · rintro ⟨hxk, hm⟩
      exact ⟨hxk, hos x hm⟩
  refine ⟨_, hred, ⟨?_, ?_, ?_, ?_, ?_, ?_⟩, rfl, ?_⟩
  · exact hnd.erase k
  · exact hkeys_st ▸ hndk.erase k
  · intro x hx
    exact (hmem₂ x).mp hx
  · intro x hx
    exact (hmem₂ x).mpr hx
  · dsimp only
    rw [List.length_erase_of_mem hord]
    have := List.length_pos_of_mem hord
    omega
  · dsimp only
    rw [List.length_erase_of_mem hord]
    omega
  · rw [dictContains, dictLookup_delete_self hndk hdel]
    rfl

theorem LruStore.setitem_fresh_at_cap_evicts {α : Type} {s : LruStore α}
    {k o : Key} {rest : List Key} (v : α) (hwf : LruWF s)
    (horder : s.usage_order = o :: rest)
    (hcap : s.usage_order.length = s.max_size)
    (hc : dictContains s.storage k = false) :
    ∃ s₂, s.setitem k v = .ok s₂ ∧ dictContains s₂.storage o = false ∧
      dictContains s₂.storage k = true := by
  obtain ⟨hnd, hndk, hso, hos, hleq, hle⟩ := hwf
  have hkk : k ∉ keysOf s.storage := by
    intro hmem
    rw [(dictContains_iff _ _).mpr hmem] at hc
    cases hc
  have ho_mem : o ∈ s.usage_order := by
    rw [horder]; exact List.mem_cons_self o rest
  have ho_keys : o ∈ keysOf s.storage := hos o ho_mem
  have hok : o ≠ k := fun h => hkk (h ▸ ho_keys)
  obtain ⟨st, hdel⟩ : ∃ st, dictDelete s.storage o = some st := by
    rcases hd : dictDelete s.storage o with _ | st
    · exact absurd ((dictDelete_eq_none_iff _ _).mp hd) (by simpa using ho_keys)
    · exact ⟨st, rfl⟩
  refine ⟨_, LruStore.setitem_at_cap k v horder hcap hdel, ?_, ?_⟩
  · show dictContains (dictInsert st k v) o = false
    rw [dictContains, dictLookup_insert_ne st v hok,
      dictLookup_delete_self hndk hdel]
    rfl
  · show dictContains (dictInsert st k v) k = true
    rw [dictContains, dictLookup_insert_self st k v]
    rfl

theorem LruStore.setitem_tracked_under_cap {α : Type} {s : LruStore α}
    {k : Key} (v : α) (hc : dictContains s.storage k = true)
    (hlt : s.usage_order.length < s.max_size) :
    ∃ s₂, s.setitem k v = .ok s₂ ∧ dictLookup s₂.storage k = some v ∧
      s₂.storage.length = s.storage.length ∧
      s₂.usage_order.length = s.usage_order.length + 1 := by
  refine ⟨_, LruStore.setitem_under k v hlt,
    dictLookup_insert_self _ k v, ?_, ?_⟩
  · dsimp only
    exact length_dictInsert_mem v ((dictContains_iff _ _).mp hc)
  · dsimp only
    rw [List.length_append, List.length_singleton]

/-! ### Hot Cache claims -/

/-- C4 counterexample: the state with one stored key and capacity 2
satisfies the claimed invariant, yet a put of the already-tracked key "A"
succeeds and leaves a state whose recency order has two records for one
stored pair, so `|mapping| == |recency order|` is broken (the order grew
although the mapping did not). -/
theorem lru_invariant_counterexample :
    (⟨[("A", [0])], ["A"], 2⟩ : LruStore Content).setitem "A" [0] =
      .ok (⟨[("A", [0])], ["A", "A"], 2⟩ : LruStore Content) ∧
    LruWF (⟨[("A", [0])], ["A"], 2⟩ : LruStore Content) ∧
    (⟨[("A", [0])], ["A", "A"], 2⟩ : LruStore Content).storage.length = 1 ∧
    (⟨[("A", [0])], ["A", "A"], 2⟩ : LruStore Content).usage_order.length = 2 ∧
    ¬ LruWF (⟨[("A", [0])], ["A", "A"], 2⟩ : LruStore Content) := by
  refine ⟨rfl, by decide, rfl, rfl, by decide⟩

/-- C4 amended: `get` of a present key, `put` of a key not currently
tracked (with positive capacity), and `remove` of a present key each
preserve well-formedness, which includes
`|mapping| == |recency order| <= N`; when the store is at capacity the
key at the least-recent end of the order is the one evicted by a fresh
put; but a `put` of an already-tracked key, instead of marking the key
most-recently-used in place, appends a second recency record: the value
is updated and the mapping does not grow, while the recency order grows
by one, violating `|mapping| == |recency order|`. -/
theorem lru_ops_preserve_wf (s : LruStore Content) (k : Key) (v : Content)
    (hwf : LruWF s) :
    (dictContains s.storage k = true →
      ∃ s₂ w, s.getitem k = .ok (s₂, w) ∧ LruWF s₂) ∧
    (dictContains s.storage k = false → 0 < s.max_size →
      ∃ s₂, s.setitem k v = .ok s₂ ∧ LruWF s₂) ∧
    (dictContains s.storage k = true →
      ∃ s₂, s.delitem k = .ok s₂ ∧ LruWF s₂) ∧
    (∀ o rest, s.usage_order = o :: rest →
      s.usage_order.length = s.max_size →
      dictContains s.storage k = false →
      ∃ s₂, s.setitem k v = .ok s₂ ∧ dictContains s₂.storage o = false ∧
        dictContains s₂.storage k = true) ∧
    (dictContains s.storage k = true →
      s.usage_order.length < s.max_size →
      ∃ s₂, s.setitem k v = .ok s₂ ∧ dictLookup s₂.storage k = some v ∧
        s₂.storage.length = s.storage.length ∧
        s₂.usage_order.length = s.usage_order.length + 1) := by
  refine ⟨?_, ?_, ?_, ?_, ?_⟩
  · intro hc
    obtain ⟨s₂, w, hget, hwf₂, _⟩ := LruStore.getitem_preserves_wf hwf hc
    exact ⟨s₂, w, hget, hwf₂⟩
  · intro hc hpos
    obtain ⟨s₂, hset, hwf₂, _⟩ :=
      LruStore.setitem_fresh_preserves_wf v hwf hc hpos
    exact ⟨s₂, hset, hwf₂⟩
  · intro hc
    obtain ⟨s₂, hdel, hwf₂, _⟩ := LruStore.delitem_preserves_wf hwf hc
    exact ⟨s₂, hdel, hwf₂⟩
  · intro o rest horder hcap hc
    exact LruStore.setitem_fresh_at_cap_evicts v hwf horder hcap hc
  · intro hc hlt
    exact LruStore.setitem_tracked_under_cap v hc hlt

/-- Witness for the amended C4 at a concrete well-formed store of
capacity 2 holding "A", and at a store at capacity 1 for the eviction
conjunct. -/
theorem lru_ops_preserve_wf_witness :
    (∃ s₂ w, (⟨[("A", [5])], ["A"], 2⟩ : LruStore Content).getitem "A" =
      .ok (s₂, w) ∧ LruWF s₂) ∧
    (∃ s₂, (⟨[("A", [5])], ["A"], 2⟩ : LruStore Content).setitem "B" [6] =
      .ok s₂ ∧ LruWF s₂) ∧
    (∃ s₂, (⟨[("A", [5])], ["A"], 1⟩ : LruStore Content).setitem "B" [6] =
      .ok s₂ ∧ dictContains s₂.storage "A" = false ∧
      dictContains s₂.storage "B" = true) ∧
    (∃ s₂, (⟨[("A", [5])], ["A"], 2⟩ : LruStore Content).setitem "A" [6] =
      .ok s₂ ∧ dictLookup s₂.storage "A" = some [6] ∧
      s₂.storage.length = 1 ∧ s₂.usage_order.length = 2) := by
  refine ⟨?_, ?_, ?_, ?_⟩
  · exact (lru_ops_preserve_wf ⟨[("A", [5])], ["A"], 2⟩ "A" [0]
      (by decide)).1 (by decide)
  · exact (lru_ops_preserve_wf ⟨[("A", [5])], ["A"], 2⟩ "B" [6]
      (by decide)).2.1 (by decide) (by decide)
  · exact (lru_ops_preserve_wf ⟨[("A", [5])], ["A"], 1⟩ "B" [6]
      (by decide)).2.2.2.1 "A" [] rfl (by decide) (by decide)
  · obtain ⟨s₂, h₁, h₂, h₃, h₄⟩ := (lru_ops_preserve_wf
      ⟨[("A", [5])], ["A"], 2⟩ "A" [6] (by decide)).2.2.2.2
      (by decide) (by decide)
    exact ⟨s₂, h₁, h₂, by simpa using h₃, by simpa using h₄⟩

/-- An observable Hot Cache operation, for stating the LRU retention
property over operation sequences. -/
inductive LruOp where
  | get (k : Key)
  | put (k : Key) (v : Content)
deriving DecidableEq, Repr

/-- The key an operation touches. -/
def LruOp.key : LruOp → Key
  | .get k => k
  | .put k _ => k

/-- Apply one operation to the store (discarding the value a get
returns, keeping the state either way). -/
def applyOp (s : LruStore Content) :
    LruOp → Except (PyErr × LruStore Content) (LruStore Content)
  | .get k => (s.getitem k).map Prod.fst
  | .put k v => s.setitem k v

/-- Run a sequence of operations from a starting state; a raise aborts
the run. -/
def runOps : LruStore Content → List LruOp →
    Except (PyErr × LruStore Content) (LruStore Content)
  | s, [] => .ok s
  | s, op :: rest =>
    match applyOp s op with
    | .ok s₂ => runOps s₂ rest
    | .error e => .error e

/-- The access discipline under which the retention property is stated:
every get targets a currently stored key and every put inserts a key not
currently stored. -/
def validOps : LruStore Content → List LruOp → Bool
  | _, [] => true
  | s, .get k :: rest =>
    dictContains s.storage k &&
    (match applyOp s (.get k) with
     | .ok s₂ => validOps s₂ rest
     | .error e => validOps e.2 rest)
  | s, .put k v :: rest =>
    !dictContains s.storage k &&
    (match applyOp s (.put k v) with
     | .ok s₂ => validOps s₂ rest
     | .error e => validOps e.2 rest)

/-- Record a touch of key `k`: `k` moves to the front of the
most-recent-first distinct-key list. -/
def touch (acc : List Key) (k : Key) : List Key := k :: acc.erase k

/-- The most-recent-first list of distinct touched keys after processing
`ops`, starting from `acc`. -/
def mrdFrom (acc : List Key) (ops : List LruOp) : List Key :=
  ops.foldl (fun a op => touch a op.key) acc

/-- The most-recent-first list of distinct touched keys of a sequence. -/
def mrd (ops : List LruOp) : List Key := mrdFrom [] ops

/-- The run invariant: the store is well-formed and its recency order,
most recent first, is the first `max_size` entries of the
most-recent-first distinct touched-key list. -/
def InvAcc (s : LruStore Content) (acc : List Key) : Prop :=
  LruWF s ∧ acc.Nodup ∧ s.usage_order.reverse = acc.take s.max_size

theorem erase_take {l : List Key} {k : Key} {n : Nat}
    (hk : k ∈ l.take (n + 1)) :
    (l.take (n + 1)).erase k = (l.erase k).take n := by
  induction l generalizing n with
  | nil => cases hk
  | cons x xs ih =>
    by_cases hx : x = k
    · subst hx
      rw [List.take_succ_cons, List.erase_cons_head, List.erase_cons_head]
    · have hbeq : (x == k) = false := by simpa using hx
      rw [List.take_succ_cons, List.mem_cons] at hk
      rcases hk with rfl | hk
      · exact absurd rfl hx
      · rcases n with _ | m
        · simp at hk
        · rw [List.take_succ_cons, List.erase_cons, List.erase_cons, hbeq]
          simp only [Bool.false_eq_true, if_false]
          rw [List.take_succ_cons, ih hk]

theorem erase_take_not_mem {l : List Key} {k : Key} {n : Nat}
    (hk : k ∉ l.take (n + 1)) :
    (l.erase k).take n = l.take n := by
  induction l generalizing n with
  | nil => rfl
  | cons x xs ih =>
    rw [List.take_succ_cons, List.mem_cons] at hk
    push_neg at hk
    have hx : x ≠ k := fun h => hk.1 h.symm
    have hbeq : (x == k) = false := by simpa using hx
    rw [List.erase_cons, hbeq]
    simp only [Bool.false_eq_true, if_false]
    rcases n with _ | m
    · rfl
    · rw [List.take_succ_cons, List.take_succ_cons, ih hk.2]

theorem invAcc_put {s : LruStore Content} {acc : List Key} {k : Key}
    (v : Content) (hinv : InvAcc s acc)
    (hc : dictContains s.storage k = false) (hpos : 0 < s.max_size) :
    ∃ s₂, s.setitem k v = .ok s₂ ∧ InvAcc s₂ (touch acc k) ∧
      s₂.max_size = s.max_size := by
  obtain ⟨hwf, hndacc, hR⟩ := hinv
  obtain ⟨s₂, hset, hwf₂, hmax, _, hR₂⟩ :=
    LruStore.setitem_fresh_preserves_wf v hwf hc hpos
  have hkord : k ∉ s.usage_order := by
    intro hm
    have := hwf.2.2.2.1 k hm
    rw [(dictContains_iff _ _).mpr this] at hc
    cases hc
  have hkR : k ∉ acc.take s.max_size := by
    rw [← hR]
    intro hm
    exact hkord (List.mem_reverse.mp hm)
  rcases hmaxeq : s.max_size with _ | m
  · omega
  · have h₁ : s.usage_order.reverse.take (s.max_size - 1) = acc.take m := by
      rw [hR, hmaxeq, List.take_take]
      congr 1
      omega
    have h₂ : (acc.erase k).take m = acc.take m :=
      erase_take_not_mem (by rw [hmaxeq] at hkR; exact hkR)
    refine ⟨s₂, hset, ⟨hwf₂, ?_, ?_⟩, by rw [hmax, hmaxeq]⟩
    · exact List.Nodup.cons (List.Nodup.not_mem_erase hndacc) (hndacc.erase k)
    · rw [hmax, hmaxeq]
      show s₂.usage_order.reverse = (k :: acc.erase k).take (m + 1)
      rw [List.take_succ_cons, hR₂, h₁, h₂]

theorem invAcc_get {s : LruStore Content} {acc : List Key} {k : Key}
    (hinv : InvAcc s acc) (hc : dictContains s.storage k = true) :
    ∃ s₂ w, s.getitem k = .ok (s₂, w) ∧ InvAcc s₂ (touch acc k) ∧
      s₂.max_size = s.max_size := by
  obtain ⟨hwf, hndacc, hR⟩ := hinv
  obtain ⟨s₂, w, hget, hwf₂, hstor, hmax, hord₂⟩ :=
    LruStore.getitem_preserves_wf hwf hc
  have hnd := hwf.1
  have hkord : k ∈ s.usage_order := hwf.2.2.1 k ((dictContains_iff _ _).mp hc)
  have hposm : 0 < s.max_size :=
    Nat.lt_of_lt_of_le (List.length_pos_of_mem hkord) hwf.2.2.2.2.2
  have hkR : k ∈ acc.take s.max_size := by
    rw [← hR]
    exact List.mem_reverse.mpr hkord
  rcases hmaxeq : s.max_size with _ | m
  · omega
  · have hkRm : k ∈ acc.take (m + 1) := by rw [hmaxeq] at hkR; exact hkR
    refine ⟨s₂, w, hget, ⟨hwf₂, ?_, ?_⟩, by rw [hmax, hmaxeq]⟩
    · exact List.Nodup.cons (List.Nodup.not_mem_erase hndacc) (hndacc.erase k)
    · rw [hmax, hmaxeq]
      show s₂.usage_order.reverse = (k :: acc.erase k).take (m + 1)
      rw [List.take_succ_cons, hord₂, List.reverse_append,
        List.reverse_singleton, List.singleton_append,
        reverse_erase_of_nodup k hnd, hR, hmaxeq, erase_take hkRm]

theorem runOps_invAcc (ops : List LruOp) :
    ∀ (s : LruStore Content) (acc : List Key), InvAcc s acc →
      0 < s.max_size → validOps s ops = true →
      ∃ s₂, runOps s ops = .ok s₂ ∧ InvAcc s₂ (mrdFrom acc ops) ∧
        s₂.max_size = s.max_size := by
  induction ops with
  | nil => exact fun s acc hinv _ _ => ⟨s, rfl, hinv, rfl⟩
  | cons op rest ih =>
    intro s acc hinv hpos hvalid
    cases op with
    | get k =>
      rw [validOps, Bool.and_eq_true] at hvalid
      have hc : dictContains s.storage k = true := hvalid.1
      obtain ⟨s₂, w, hget, hinv₂, hmax⟩ := invAcc_get hinv hc
      have happ : applyOp s (.get k) = .ok s₂ := by
        rw [applyOp, hget]
        rfl
      have hvrest : validOps s₂ rest = true := by
        have h₂ := hvalid.2
        rw [happ] at h₂
        exact h₂
      obtain ⟨s₃, hrun, hinv₃, hmax₃⟩ :=
        ih s₂ (touch acc k) hinv₂ (by rw [hmax]; exact hpos) hvrest
      have hstep : runOps s (.get k :: rest) = runOps s₂ rest := by
        rw [runOps, happ]
      exact ⟨s₃, by rw [hstep]; exact hrun, hinv₃, by rw [hmax₃, hmax]⟩
    | put k v =>
      rw [validOps, Bool.and_eq_true] at hvalid
      have hc : dictContains s.storage k = false := by simpa using hvalid.1
      obtain ⟨s₂, hset, hinv₂, hmax⟩ := invAcc_put v hinv hc hpos
      have happ : applyOp s (.put k v) = .ok s₂ := by
        rw [applyOp, hset]
      have hvrest : validOps s₂ rest = true := by
        have h₂ := hvalid.2
        rw [happ] at h₂
        exact h₂
      obtain ⟨s₃, hrun, hinv₃, hmax₃⟩ :=
        ih s₂ (touch acc k) hinv₂ (by rw [hmax]; exact hpos) hvrest
      have hstep : runOps s (.put k v :: rest) = runOps s₂ rest := by
        rw [runOps, happ]
      exact ⟨s₃, by rw [hstep]; exact hrun, hinv₃, by rw [hmax₃, hmax]⟩

theorem validOps_append_left (pre : List LruOp) :
    ∀ (suf : List LruOp) (s : LruStore Content),
      validOps s (pre ++ suf) = true → validOps s pre = true := by
  induction pre with
  | nil => exact fun _ _ _ => rfl
  | cons op rest ih =>
    intro suf s h
    cases op with
    | get k =>
      rw [List.cons_append, validOps, Bool.and_eq_true] at h
      rw [validOps, Bool.and_eq_true]
      refine ⟨h.1, ?_⟩
      have h₂ := h.2
      cases happ : applyOp s (.get k) with
      | ok s₂ =>
        rw [happ] at h₂
        exact ih suf s₂ h₂
      | error e =>
        rw [happ] at h₂
        exact ih suf e.2 h₂
    | put k v =>
      rw [List.cons_append, validOps, Bool.and_eq_true] at h
      rw [validOps, Bool.and_eq_true]
      refine ⟨h.1, ?_⟩
      have h₂ := h.2
      cases happ : applyOp s (.put k v) with
      | ok s₂ =>
        rw [happ] at h₂
        exact ih suf s₂ h₂
      | error e =>
        rw [happ] at h₂
        exact ih suf e.2 h₂

/-- The eviction tie-break scenario of the spec: capacity 2, insert A,
insert B, get A, insert C. -/
def demoOps : List LruOp :=
  [.put "A" [10], .put "B" [11], .get "A", .put "C" [12]]

/-- C3 counterexample: the claim quantifies over every sequence of put
and get operations, but on capacity 2 the sequence
put A, put A, put B leaves only {B} stored, although A is among the two
most recently touched distinct keys — a re-put of a tracked key makes
the code evict a key the policy should have kept. -/
theorem lru_retained_counterexample :
    runOps (LruStore.init Content 2)
      [.put "A" [0], .put "A" [0], .put "B" [1]] =
      .ok (⟨[("B", [1])], ["A", "B"], 2⟩ : LruStore Content) ∧
    "A" ∈ (mrd [.put "A" [0], .put "A" [0], .put "B" [1]]).take 2 ∧
    LruStore.contains (⟨[("B", [1])], ["A", "B"], 2⟩ : LruStore Content) "A"
      = false := ⟨rfl, by decide, rfl⟩

/-- C3 amended: for sequences in which every get targets a present key
and every put inserts a key not currently present (and capacity is
positive), at every point the cache holds at most N entries and the
retained entries are exactly the N most recently touched distinct keys;
the scenario with capacity 2 — insert A, insert B, get A, insert C —
evicts B and leaves exactly {A, C}.  A put of an already-present key
breaks the general statement. -/
theorem lru_retained_most_recent (N : Nat) (pre suf : List LruOp)
    (hpos : 0 < N)
    (hvalid : validOps (LruStore.init Content N) (pre ++ suf) = true) :
    (∃ s, runOps (LruStore.init Content N) pre = .ok s ∧
      s.storage.length ≤ N ∧
      s.usage_order.reverse = (mrd pre).take N ∧
      (∀ k, LruStore.contains s k = true ↔ k ∈ (mrd pre).take N)) ∧
    (runOps (LruStore.init Content 2) demoOps =
      .ok (⟨[("A", [10]), ("C", [12])], ["A", "C"], 2⟩ : LruStore Content) ∧
     LruStore.contains
       (⟨[("A", [10]), ("C", [12])], ["A", "C"], 2⟩ : LruStore Content) "A"
       = true ∧
     LruStore.contains
       (⟨[("A", [10]), ("C", [12])], ["A", "C"], 2⟩ : LruStore Content) "B"
       = false ∧
     LruStore.contains
       (⟨[("A", [10]), ("C", [12])], ["A", "C"], 2⟩ : LruStore Content) "C"
       = true) := by
  constructor
  · have hv : validOps (LruStore.init Content N) pre = true :=
      validOps_append_left pre suf _ hvalid
    have hinv0 : InvAcc (LruStore.init Content N) [] := by
      refine ⟨⟨List.nodup_nil, List.nodup_nil, ?_, ?_, rfl, ?_⟩,
        List.nodup_nil, ?_⟩
      · intro x hx
        cases hx
      · intro x hx
        cases hx
      · exact Nat.zero_le N
      · simp [LruStore.init]
    obtain ⟨s₂, hrun, ⟨hwf₂, _, hR⟩, hmax⟩ :=
      runOps_invAcc pre (LruStore.init Content N) [] hinv0 hpos hv
    obtain ⟨hnd₂, hndk₂, hso₂, hos₂, hleq₂, hle₂⟩ := hwf₂
    have hmaxN : s₂.max_size = N := hmax
    refine ⟨s₂, hrun, ?_, ?_, ?_⟩
    · rw [hleq₂]
      rw [hmaxN] at hle₂
      exact hle₂
    · rw [hR, hmaxN]
      rfl
    · intro k
      rw [LruStore.contains, dictContains_iff]
      constructor
      · intro hk
        have : k ∈ s₂.usage_order.reverse := List.mem_reverse.mpr (hso₂ k hk)
        rw [hR, hmaxN] at this
        exact this
      · intro hk
        have : k ∈ s₂.usage_order.reverse := by
          rw [hR, hmaxN]
          exact hk
        exact hos₂ k (List.mem_reverse.mp this)
  · exact ⟨rfl, rfl, rfl, rfl⟩

/-- Witness for the amended C3, running the eviction tie-break scenario
itself through the general statement. -/
theorem lru_retained_most_recent_witness :
    ∃ s, runOps (LruStore.init Content 2) demoOps = .ok s ∧
      s.storage.length ≤ 2 ∧
      s.usage_order.reverse = (mrd demoOps).take 2 ∧
      (∀ k, LruStore.contains s k = true ↔ k ∈ (mrd demoOps).take 2) :=
  (lru_retained_most_recent 2 demoOps [] (by decide) (by decide)).1

/-- C6 counterexample: on a Hot Cache of capacity 0, the very first put
does not succeed with an immediate eviction — it raises `IndexError`
(from `usage_order[0]` on the empty deque) and stores nothing. -/
theorem lru_capacity_zero_counterexample :
    (LruStore.init Content 0).setitem "A" [1] =
      .error (.indexError, LruStore.init Content 0) := rfl

/-- C6 amended: with capacity 0 (and the recency deque empty, as it
always is at that capacity), every put raises `IndexError` and leaves the
store unchanged, instead of succeeding with the entry immediately
evicted. -/
theorem lru_capacity_zero_put_error (s : LruStore Content) (k : Key)
    (v : Content) (hmax : s.max_size = 0) (hord : s.usage_order = []) :
    s.setitem k v = .error (.indexError, s) := by
  rw [LruStore.setitem, hord, hmax]
  rfl

/-- Witness for the amended C6 at the freshly constructed store. -/
theorem lru_capacity_zero_put_error_witness :
    (LruStore.init Content 0).setitem "B" [2] =
      .error (.indexError, LruStore.init Content 0) :=
  lru_capacity_zero_put_error (LruStore.init Content 0) "B" [2] rfl rfl

/-! ### Durable Store claims -/

/-- C7: a `put(k, v)` on the Durable Store followed immediately by
`get(k)` returns `v` exactly, and a second `put` on the same key fully
replaces any previously stored value (last-write-wins upsert). -/
theorem sqlite_put_get_roundtrip (s : SQLiteKeyValueStore) (k : Key)
    (v : Content) (old : Option Content) :
    (s.setitem k (some v)).getitem k = some v ∧
    ((s.setitem k old).setitem k (some v)).getitem k = some v := by
  constructor <;>
    simp [SQLiteKeyValueStore.getitem, SQLiteKeyValueStore.setitem,
      dictLookup_insert_self]

/-- C10: a `get` on a key with no row returns the absent marker `None`
rather than raising; `contains` is literally `get(k) is not None`; and a
key stored with a `NULL` blob answers `get`/`contains` exactly like a key
that was never stored. -/
theorem sqlite_absent_marker_contains (s : SQLiteKeyValueStore) (k : Key) :
    (dictLookup s.table k = none → s.getitem k = none) ∧
    (s.contains k = (s.getitem k).isSome) ∧
    (s.setitem k none).getitem k = none ∧
    (s.setitem k none).contains k = false ∧
    SQLiteKeyValueStore.init.getitem k = none ∧
    SQLiteKeyValueStore.init.contains k = false := by
  refine ⟨fun h => by simp [SQLiteKeyValueStore.getitem, h], rfl, ?_, ?_, rfl, rfl⟩
  · simp [SQLiteKeyValueStore.getitem, SQLiteKeyValueStore.setitem,
      dictLookup_insert_self]
  · simp [SQLiteKeyValueStore.contains, SQLiteKeyValueStore.getitem,
      SQLiteKeyValueStore.setitem, dictLookup_insert_self]

/-- Witness for C10 at the empty store and key "k". -/
theorem sqlite_absent_marker_contains_witness :
    (SQLiteKeyValueStore.init.getitem "k" = none) ∧
    (SQLiteKeyValueStore.init.contains "k" =
      (SQLiteKeyValueStore.init.getitem "k").isSome) ∧
    (SQLiteKeyValueStore.init.setitem "k" none).getitem "k" = none ∧
    (SQLiteKeyValueStore.init.setitem "k" none).contains "k" = false := by
  obtain ⟨h₁, h₂, h₃, h₄, _, _⟩ :=
    sqlite_absent_marker_contains SQLiteKeyValueStore.init "k"
  exact ⟨h₁ rfl, h₂, h₃, h₄⟩

/-! ### Coordinator path lemmas -/

theorem LruWF_init (α : Type) (n : Nat) : LruWF (LruStore.init α n) := by
  refine ⟨List.nodup_nil, List.nodup_nil, ?_, ?_, rfl, Nat.zero_le n⟩
  · intro x hx
    cases hx
  · intro x hx
    cases hx

theorem normal_call_hot_hit (st : CacheState) {url : Key} {v : Option Content}
    (w : World) (hle : st.mem_cache.usage_order.length ≤ st.mem_cache.max_size)
    (hord : url ∈ st.mem_cache.usage_order)
    (hv : dictLookup st.mem_cache.storage url = some v) :
    normal_call w st url =
      .ok ⟨⟨{ st.mem_cache with usage_order :=
          st.mem_cache.usage_order.erase url ++ [url] }, st.file_cache⟩,
        ⟨v, none⟩, true, 0⟩ := by
  have hc : st.mem_cache.contains url = true := by
    rw [LruStore.contains, dictContains, hv]
    rfl
  rw [normal_call, if_pos hc, LruStore.getitem_present hv hord hle]
  rfl

theorem normal_call_durable_hit (w : World) (st : CacheState) (url : Key)
    (hwf : LruWF st.mem_cache) (hpos : 0 < st.mem_cache.max_size)
    (hmem : st.mem_cache.contains url = false) (hread : w.dbReadOk = true)
    (hfile : st.file_cache.contains url = true) :
    ∃ m, normal_call w st url =
        .ok ⟨⟨m, st.file_cache⟩, ⟨st.file_cache.getitem url, none⟩, true, 0⟩ ∧
      dictLookup m.storage url = some (st.file_cache.getitem url) ∧
      LruWF m ∧ m.max_size = st.mem_cache.max_size := by
  have hfg : fileGet w st.file_cache url = .ok (st.file_cache.getitem url) := by
    rw [fileGet, hread]
    rfl
  have hps : (st.file_cache.getitem url).isSome = true := hfile
  have hmemc : dictContains st.mem_cache.storage url = false := hmem
  obtain ⟨m, hset, hwf₂, hmax, hv, _⟩ :=
    LruStore.setitem_fresh_preserves_wf (st.file_cache.getitem url) hwf hmemc
      hpos
  refine ⟨m, ?_, hv, hwf₂, hmax⟩
  rw [normal_call, if_neg (by rw [hmem]; exact Bool.false_ne_true), hfg]
  simp only [hps, if_true, hset]
  rfl

theorem sync_cache_ok (w : World) (st : CacheState) (url : Key)
    (resp : Response) (hwf : LruWF st.mem_cache)
    (hpos : 0 < st.mem_cache.max_size) (hwrite : w.dbWriteOk = true)
    (hfetch : w.fetch url = .ok resp) :
    ∃ m, sync_cache w st url =
        .ok ⟨⟨m, st.file_cache.setitem url resp._content⟩, resp, false, 1⟩ ∧
      dictLookup m.storage url = some resp._content ∧
      m.max_size = st.mem_cache.max_size := by
  have hdo : do_request w url = .ok (resp._content, resp) := by
    rw [do_request, hfetch]
  obtain ⟨m, hset, hv, _, hmax⟩ :=
    LruStore.setitem_wf_lookup url resp._content hwf hpos
  refine ⟨m, ?_, hv, hmax⟩
  rw [sync_cache, hdo]
  dsimp only
  rw [hset]
  dsimp only
  rw [fileSet, hwrite]
  rfl

theorem sync_cache_fresh_ok (w : World) (st : CacheState) (url : Key)
    (resp : Response) (hwf : LruWF st.mem_cache)
    (hpos : 0 < st.mem_cache.max_size)
    (hmem : st.mem_cache.contains url = false) (hwrite : w.dbWriteOk = true)
    (hfetch : w.fetch url = .ok resp) :
    ∃ m, sync_cache w st url =
        .ok ⟨⟨m, st.file_cache.setitem url resp._content⟩, resp, false, 1⟩ ∧
      dictLookup m.storage url = some resp._content ∧
      LruWF m ∧ m.max_size = st.mem_cache.max_size := by
  have hdo : do_request w url = .ok (resp._content, resp) := by
    rw [do_request, hfetch]
  obtain ⟨m, hset, hwf₂, hmax, hv, _⟩ :=
    LruStore.setitem_fresh_preserves_wf resp._content hwf hmem hpos
  refine ⟨m, ?_, hv, hwf₂, hmax⟩
  rw [sync_cache, hdo]
  dsimp only
  rw [hset]
  dsimp only
  rw [fileSet, hwrite]
  rfl

theorem normal_call_miss_path (w : World) (st : CacheState) (url : Key)
    (resp : Response) (hwf : LruWF st.mem_cache)
    (hpos : 0 < st.mem_cache.max_size)
    (hmem : st.mem_cache.contains url = false) (hread : w.dbReadOk = true)
    (hwrite : w.dbWriteOk = true) (hfile : st.file_cache.contains url = false)
    (hfetch : w.fetch url = .ok resp) :
    ∃ m, normal_call w st url =
        .ok ⟨⟨m, st.file_cache.setitem url resp._content⟩, resp, false, 1⟩ ∧
      dictLookup m.storage url = some resp._content ∧
      LruWF m ∧ m.max_size = st.mem_cache.max_size := by
  have hfg : fileGet w st.file_cache url = .ok (st.file_cache.getitem url) := by
    rw [fileGet, hread]
    rfl
  have hps : (st.file_cache.getitem url).isSome = false := hfile
  obtain ⟨m, hsync, hv, hwf₂, hmax⟩ :=
    sync_cache_fresh_ok w st url resp hwf hpos hmem hwrite hfetch
  refine ⟨m, ?_, hv, hwf₂, hmax⟩
  rw [normal_call, if_neg (by rw [hmem]; exact Bool.false_ne_true), hfg]
  simp only [hps, Bool.false_eq_true, if_false]
  exact hsync

/-! ### Coordinator claims -/

/-- A network returning a 404 error response for every URL, over a
healthy database. -/
def w404 : World := ⟨fun _ => .ok ⟨some [1, 2], some 404⟩, true, true⟩

/-- A network that raises a connection error for every URL, over a
healthy database. -/
def wConnErr : World := ⟨fun _ => .error .connectionError, true, true⟩

/-- A healthy network over a database that cannot be written. -/
def wNoWrite : World := ⟨fun _ => .ok ⟨some [3], some 200⟩, true, false⟩

/-- A healthy network over a database that cannot be read. -/
def wNoRead : World := ⟨fun _ => .ok ⟨some [3], some 200⟩, false, true⟩

/-- A healthy network and database; every fetch yields status 200 with
body [9]. -/
def wOk : World := ⟨fun _ => .ok ⟨some [9], some 200⟩, true, true⟩

/-- C1 counterexample: a fetch that "fails" in the claim's sense by
returning a non-success status (404, here with an error payload as the
body) is not treated as a failure by the coordinator: the resolve
succeeds, returns the error response as a fresh fetch, and both tiers
end up containing an entry for the key. -/
theorem fetch_error_counterexample :
    cacheCall w404 (initCache 1) "u" false =
      .ok ⟨⟨⟨[("u", some [1, 2])], ["u"], 1⟩, ⟨[("u", some [1, 2])]⟩⟩,
        ⟨some [1, 2], some 404⟩, false, 1⟩ ∧
    LruStore.contains
      (⟨[("u", some [1, 2])], ["u"], 1⟩ : LruStore (Option Content)) "u"
      = true ∧
    SQLiteKeyValueStore.contains ⟨[("u", some [1, 2])]⟩ "u" = true :=
  ⟨rfl, rfl, rfl⟩

/-- C1 amended: when the Fetch Collaborator raises (a network error),
the coordinator propagates that exception and the state at raise time is
exactly the input state — nothing was written to either tier.  A
non-success status or an error payload embedded in a successful response
is, however, not detected by the cache layer: such a response is cached
in both tiers and returned as a fresh fetch. -/
theorem fetch_raise_propagates_no_writes (w : World) (st : CacheState)
    (url : Key) (e : PyErr) (hfetch : w.fetch url = .error e) :
    cacheCall w st url true = .error (e, st, 1) ∧
    (st.mem_cache.contains url = false → w.dbReadOk = true →
      st.file_cache.contains url = false →
      cacheCall w st url false = .error (e, st, 1)) := by
  have hdo : do_request w url = .error e := by
    rw [do_request, hfetch]
  have hsync : sync_cache w st url = .error (e, st, 1) := by
    rw [sync_cache, hdo]
  constructor
  · show sync_cache w st url = _
    exact hsync
  · intro hmem hread hfile
    show normal_call w st url = _
    have hfg : fileGet w st.file_cache url =
        .ok (st.file_cache.getitem url) := by
      rw [fileGet, hread]
      rfl
    have hps : (st.file_cache.getitem url).isSome = false := hfile
    rw [normal_call, if_neg (by rw [hmem]; exact Bool.false_ne_true), hfg]
    simp only [hps, Bool.false_eq_true, if_false]
    exact hsync

/-- Witness for the amended C1 on a connection-erroring network and a
cold coordinator of capacity 1. -/
theorem fetch_raise_propagates_no_writes_witness :
    cacheCall wConnErr (initCache 1) "u" true =
      .error (.connectionError, initCache 1, 1) ∧
    cacheCall wConnErr (initCache 1) "u" false =
      .error (.connectionError, initCache 1, 1) := by
  obtain ⟨h₁, h₂⟩ := fetch_raise_propagates_no_writes wConnErr (initCache 1)
    "u" .connectionError rfl
  exact ⟨h₁, h₂ rfl rfl rfl⟩

/-- C2: with `force_refresh` false, a Hot Cache hit returns the stored
entry with `was_cached` true and zero fetches, for every world — in
particular worlds whose database cannot even be read, so no Durable
Store or network access happens; a Hot Cache miss with a Durable Store
hit promotes the entry into the Hot Cache via a put and returns
`was_cached` true with zero fetches; a miss in both tiers fetches once,
writes both tiers and returns `was_cached` false; on a cold coordinator
the first resolve fetches exactly once returning `was_cached` false and
the immediate second resolve returns `was_cached` true with zero
fetches. -/
theorem resolve_tier_order (w : World) (st : CacheState) (url : Key)
    (hwf : LruWF st.mem_cache) (hpos : 0 < st.mem_cache.max_size) :
    (∀ v, dictLookup st.mem_cache.storage url = some v →
      ∀ w₂ : World, normal_call w₂ st url =
        .ok ⟨⟨{ st.mem_cache with usage_order :=
            st.mem_cache.usage_order.erase url ++ [url] }, st.file_cache⟩,
          ⟨v, none⟩, true, 0⟩) ∧
    (st.mem_cache.contains url = false → w.dbReadOk = true →
      st.file_cache.contains url = true →
      ∃ m, normal_call w st url =
          .ok ⟨⟨m, st.file_cache⟩, ⟨st.file_cache.getitem url, none⟩,
            true, 0⟩ ∧
        dictLookup m.storage url = some (st.file_cache.getitem url)) ∧
    (st.mem_cache.contains url = false → w.dbReadOk = true →
      w.dbWriteOk = true → st.file_cache.contains url = false →
      ∀ resp, w.fetch url = .ok resp →
      ∃ m, normal_call w st url =
          .ok ⟨⟨m, st.file_cache.setitem url resp._content⟩, resp,
            false, 1⟩ ∧
        dictLookup m.storage url = some resp._content) ∧
    (∀ (n : Nat) (resp : Response), 0 < n → w.dbReadOk = true →
      w.dbWriteOk = true → w.fetch url = .ok resp →
      ∃ st₁, cacheCall w (initCache n) url false =
          .ok ⟨st₁, resp, false, 1⟩ ∧
        ∃ m₂, cacheCall w st₁ url false =
          .ok ⟨⟨m₂, st₁.file_cache⟩, ⟨resp._content, none⟩, true, 0⟩) := by
  refine ⟨?_, ?_, ?_, ?_⟩
  · intro v hv w₂
    have hkk : url ∈ keysOf st.mem_cache.storage :=
      (dictLookup_isSome_iff _ _).mp (by rw [hv]; rfl)
    exact normal_call_hot_hit st w₂ hwf.2.2.2.2.2 (hwf.2.2.1 url hkk) hv
  · intro hmem hread hfile
    obtain ⟨m, heq, hv, _, _⟩ :=
      normal_call_durable_hit w st url hwf hpos hmem hread hfile
    exact ⟨m, heq, hv⟩
  · intro hmem hread hwrite hfile resp hfetch
    obtain ⟨m, heq, hv, _, _⟩ :=
      normal_call_miss_path w st url resp hwf hpos hmem hread hwrite hfile
        hfetch
    exact ⟨m, heq, hv⟩
  · intro n resp hn hread hwrite hfetch
    obtain ⟨m, heq, hv, hwf₂, hmax⟩ :=
      normal_call_miss_path w (initCache n) url resp
        (LruWF_init (Option Content) n) hn rfl hread hwrite rfl hfetch
    refine ⟨⟨m, (initCache n).file_cache.setitem url resp._content⟩,
      heq, ?_⟩
    have hkk : url ∈ keysOf m.storage :=
      (dictLookup_isSome_iff _ _).mp (by rw [hv]; rfl)
    have hhot := normal_call_hot_hit
      ⟨m, (initCache n).file_cache.setitem url resp._content⟩ w
      hwf₂.2.2.2.2.2 (hwf₂.2.2.1 url hkk) hv
    exact ⟨_, hhot⟩

/-- Witness for C2: the hot-hit conjunct on an unreadable database, the
durable-hit conjunct, the double-miss conjunct and the cold-start
scenario, each at a concrete store. -/
theorem resolve_tier_order_witness :
    (normal_call wNoRead
        ⟨⟨[("u", some [7])], ["u"], 2⟩, SQLiteKeyValueStore.init⟩ "u" =
      .ok ⟨⟨⟨[("u", some [7])], ["u"], 2⟩, SQLiteKeyValueStore.init⟩,
        ⟨some [7], none⟩, true, 0⟩) ∧
    (∃ m, normal_call wOk
        ⟨LruStore.init (Option Content) 2, ⟨[("u", some [7])]⟩⟩ "u" =
        .ok ⟨⟨m, ⟨[("u", some [7])]⟩⟩, ⟨some [7], none⟩, true, 0⟩ ∧
      dictLookup m.storage "u" = some (some [7])) ∧
    (∃ m, normal_call wOk (initCache 2) "u" =
        .ok ⟨⟨m, SQLiteKeyValueStore.init.setitem "u" (some [9])⟩,
          ⟨some [9], some 200⟩, false, 1⟩ ∧
      dictLookup m.storage "u" = some (some [9])) ∧
    (∃ st₁, cacheCall wOk (initCache 2) "u" false =
        .ok ⟨st₁, ⟨some [9], some 200⟩, false, 1⟩ ∧
      ∃ m₂, cacheCall wOk st₁ "u" false =
        .ok ⟨⟨m₂, st₁.file_cache⟩, ⟨some [9], none⟩, true, 0⟩) := by
  refine ⟨?_, ?_, ?_, ?_⟩
  · exact (resolve_tier_order wNoRead
      ⟨⟨[("u", some [7])], ["u"], 2⟩, SQLiteKeyValueStore.init⟩ "u"
      (by decide) (by decide)).1 (some [7]) rfl wNoRead
  · exact (resolve_tier_order wOk
      ⟨LruStore.init (Option Content) 2, ⟨[("u", some [7])]⟩⟩ "u"
      (by decide) (by decide)).2.1 rfl rfl rfl
  · exact (resolve_tier_order wOk (initCache 2) "u"
      (by decide) (by decide)).2.2.1 rfl rfl rfl rfl ⟨some [9], some 200⟩ rfl
  · exact (resolve_tier_order wOk (initCache 2) "u"
      (by decide) (by decide)).2.2.2 2 ⟨some [9], some 200⟩ (by decide)
      rfl rfl rfl

/-- C5: with `force_refresh` true the coordinator goes straight to the
network (the world's database-read health is never consulted), performs
exactly one fetch, writes the fetched content into the Hot Cache and
then the Durable Store — overwriting whatever either tier held for that
key — and returns the response with `was_cached` false. -/
theorem force_refresh_overwrites (w : World) (st : CacheState) (url : Key)
    (resp : Response) (hwf : LruWF st.mem_cache)
    (hpos : 0 < st.mem_cache.max_size) (hwrite : w.dbWriteOk = true)
    (hfetch : w.fetch url = .ok resp) :
    ∃ m, cacheCall w st url true =
        .ok ⟨⟨m, st.file_cache.setitem url resp._content⟩, resp,
          false, 1⟩ ∧
      dictLookup m.storage url = some resp._content ∧
      (st.file_cache.setitem url resp._content).getitem url =
        resp._content := by
  obtain ⟨m, heq, hv, hmax⟩ :=
    sync_cache_ok w st url resp hwf hpos hwrite hfetch
  refine ⟨m, heq, hv, ?_⟩
  simp [SQLiteKeyValueStore.getitem, SQLiteKeyValueStore.setitem,
    dictLookup_insert_self]

/-- Witness for C5 on a coordinator whose tiers already hold older
entries for the key: both are overwritten. -/
theorem force_refresh_overwrites_witness :
    ∃ m, cacheCall wOk
        ⟨⟨[("u", some [7])], ["u"], 2⟩, ⟨[("u", some [8])]⟩⟩ "u" true =
        .ok ⟨⟨m, SQLiteKeyValueStore.setitem ⟨[("u", some [8])]⟩ "u"
          (some [9])⟩, ⟨some [9], some 200⟩, false, 1⟩ ∧
      dictLookup m.storage "u" = some (some [9]) ∧
      (SQLiteKeyValueStore.setitem ⟨[("u", some [8])]⟩ "u"
        (some [9])).getitem "u" = some [9] :=
  force_refresh_overwrites wOk
    ⟨⟨[("u", some [7])], ["u"], 2⟩, ⟨[("u", some [8])]⟩⟩ "u"
    ⟨some [9], some 200⟩ (by decide) (by decide) rfl rfl

/-- C8 counterexample: when the durable write of the write-back step
fails, the error is surfaced, but a partial cache mutation IS left
behind — the Hot Cache retains an entry for the key that the Durable
Store lacks, because the memory-tier write precedes the durable write. -/
theorem writeback_failure_counterexample :
    sync_cache wNoWrite (initCache 1) "u" =
      .error (.storeError,
        ⟨⟨[("u", some [3])], ["u"], 1⟩, SQLiteKeyValueStore.init⟩, 1) ∧
    LruStore.contains
      (⟨[("u", some [3])], ["u"], 1⟩ : LruStore (Option Content)) "u"
      = true ∧
    SQLiteKeyValueStore.contains SQLiteKeyValueStore.init "u" = false :=
  ⟨rfl, rfl, rfl⟩

/-- C8 amended: a Durable Store write failure during the write-back step
is fatal to the resolve call and surfaced to the caller, but it is not
free of partial mutation: the Hot Cache write happens first, so after
the raise the Hot Cache contains the fetched entry while the Durable
Store is unchanged (and in particular may lack the key). -/
theorem writeback_failure_surfaced (w : World) (st : CacheState)
    (url : Key) (resp : Response) (hwf : LruWF st.mem_cache)
    (hpos : 0 < st.mem_cache.max_size) (hwrite : w.dbWriteOk = false)
    (hfetch : w.fetch url = .ok resp) :
    ∃ m, sync_cache w st url =
        .error (.storeError, ⟨m, st.file_cache⟩, 1) ∧
      dictContains m.storage url = true := by
  have hdo : do_request w url = .ok (resp._content, resp) := by
    rw [do_request, hfetch]
  obtain ⟨m, hset, _, hcon, _⟩ :=
    LruStore.setitem_wf_lookup url resp._content hwf hpos
  refine ⟨m, ?_, hcon⟩
  rw [sync_cache, hdo]
  dsimp only
  rw [hset]
  dsimp only
  rw [fileSet, hwrite]
  rfl

/-- Witness for the amended C8 on an unwritable database, capacity 2. -/
theorem writeback_failure_surfaced_witness :
    ∃ m, sync_cache wNoWrite (initCache 2) "v" =
        .error (.storeError, ⟨m, SQLiteKeyValueStore.init⟩, 1) ∧
      dictContains m.storage "v" = true :=
  writeback_failure_surfaced wNoWrite (initCache 2) "v"
    ⟨some [3], some 200⟩ (by decide) (by decide) rfl rfl

/-- C9 counterexample: when the Durable Store read during the lookup
fails, the coordinator does not treat it as a miss and fall through to
the fetch (which here would have succeeded with status 200): it raises,
with zero fetches performed. -/
theorem durable_read_failure_counterexample :
    normal_call wNoRead (initCache 1) "u" =
      .error (.storeError, initCache 1, 0) ∧
    wNoRead.fetch "u" = .ok ⟨some [3], some 200⟩ :=
  ⟨rfl, rfl⟩

/-- C9 amended: a Durable Store read failure during a resolve lookup
(`force_refresh` false, Hot Cache miss) is not absorbed: the exception
propagates to the caller untouched, the fetch path is never reached
(zero fetches), and the state is unchanged. -/
theorem durable_read_failure_propagates (w : World) (st : CacheState)
    (url : Key) (hmem : st.mem_cache.contains url = false)
    (hread : w.dbReadOk = false) :
    normal_call w st url = .error (.storeError, st, 0) := by
  rw [normal_call, if_neg (by rw [hmem]; exact Bool.false_ne_true),
    fileGet, hread]
  rfl

/-- Witness for the amended C9 at capacity 2. -/
theorem durable_read_failure_propagates_witness :
    normal_call wNoRead (initCache 2) "v" =
      .error (.storeError, initCache 2, 0) :=
  durable_read_failure_propagates wNoRead (initCache 2) "v" rfl rfl

end Imdb
